import Mathlib

/-!
Verification development for the KupuKupu RSS/Atom reader.

This file gives a shallow embedding, in Lean 4, of the core of the
repository: the string-hash utility (`src/utils/hash.js`), the
deduplication/merge engine and fetch scheduler of the feed manager
(`src/assets/js/feed-manager.js`, `FeedManager.processFeedItems`,
`FeedManager.fetchFeed`, `FeedManager.fetchAllFeeds`,
`FeedManager.updateFeeds`), and the dual-backend storage adapter
(`src/js/core/storage/StorageAdapter.js` and the SQLite-backed
`ElectronStorageAdapter`).  JavaScript numbers that the code only ever
compares or adds are embedded as `Nat`/`Int` with explicit 32-bit
truncation where the source truncates; fallible operations return
`Except`/`Option`; the asynchronous storage backends are embedded as
explicit state-passing functions.
-/

namespace Kupukupu

/-! ## Hash utility (`src/utils/hash.js`, `createHash`)

JavaScript semantics embedded here: `hash` is kept as a signed 32-bit
integer (`hash = hash & hash` applies `ToInt32`), `hash << 5` is a
32-bit shift of a 32-bit operand, `Math.abs` and `Number.toString(36)`
are exact on these magnitudes.  `charCodeAt` agrees with `Char.toNat`
on the Basic Multilingual Plane. -/

/-- JavaScript `ToInt32`: reduce an integer into the signed 32-bit range, as
JavaScript's `x & x` (and every bitwise operator) does. -/
def toInt32 (x : Int) : Int := (x + 2 ^ 31) % 2 ^ 32 - 2 ^ 31

/-- One step of the hash loop:
`hash = ((hash << 5) - hash) + char; hash = hash & hash`.
The shift `hash << 5` is itself a 32-bit operation, so it is truncated
before the subtraction; the subtraction and addition are exact (double
precision) and the final `hash & hash` truncates to 32 bits. -/
def hashStep (h : Int) (c : Char) : Int :=
  toInt32 (toInt32 (h * 32) - h + c.toNat)

/-- The digit characters `0-9a-z` used by `Number.prototype.toString(36)`. -/
def base36digit (n : Nat) : Char :=
  if n < 10 then Char.ofNat ('0'.toNat + n) else Char.ofNat ('a'.toNat + (n - 10))

/-- Digit-extraction loop for base 36, structurally recursive on a fuel
argument (the fuel is always at least the number, which bounds the
number of digits, so the fallback branch is unreachable). -/
def toBase36Aux : Nat → Nat → List Char → List Char
  | 0, n, acc => base36digit n :: acc
  | fuel + 1, n, acc =>
    if n < 36 then base36digit n :: acc
    else toBase36Aux fuel (n / 36) (base36digit (n % 36) :: acc)

/-- Base-36 representation of a natural number, most significant digit
first, as produced by `Number.prototype.toString(36)` on a nonnegative
integer. -/
def toBase36 (n : Nat) : List Char := toBase36Aux n n []

/-- Definition of `createHash` from `src/utils/hash.js`: rolling 32-bit hash of the
string, absolute value, base-36 encoded.  The `if (!str)` early return
fires exactly on the empty string (the argument is a string). -/
def createHash (s : String) : String :=
  if s.isEmpty then ⟨toBase36 0⟩
  else ⟨toBase36 (s.data.foldl hashStep 0).natAbs⟩

/-- The spec's description of one step of the rolling hash:
`h := (h << 5) - h + charCode`, truncated to a signed 32-bit integer
each step (a single truncation per step). -/
def specHashStep (h : Int) (c : Char) : Int :=
  toInt32 (h * 2 ^ 5 - h + c.toNat)

/-- The 32-bit rolling hash of a string as the spec words it. -/
def rollingHash32 (s : String) : Int := s.data.foldl specHashStep 0

lemma toInt32_mod (a : Int) : toInt32 a % 2 ^ 32 = a % 2 ^ 32 := by
  unfold toInt32
  omega

lemma toInt32_congr {a b : Int} (h : a % 2 ^ 32 = b % 2 ^ 32) : toInt32 a = toInt32 b := by
  unfold toInt32
  omega

lemma hashStep_eq_specHashStep (h : Int) (c : Char) : hashStep h c = specHashStep h c := by
  unfold hashStep specHashStep
  apply toInt32_congr
  have h32 := toInt32_mod (h * 32)
  have h5 : (2 : Int) ^ 5 = 32 := by norm_num
  rw [h5]
  omega

/-- C8.  `createHash` is deterministic — two calls with the same input
return the same value, independent of any other state (it is a pure
function of the string) — and equals the base-36 encoding of the
absolute value of the 32-bit rolling hash of the string, iterating
`h := (h << 5) - h + charCode` truncated to a signed 32-bit integer
each step. -/
theorem createHash_deterministic_and_rolling (s : String) :
    createHash s = createHash s ∧
    createHash s = ⟨toBase36 (rollingHash32 s).natAbs⟩ := by
  refine ⟨rfl, ?_⟩
  unfold createHash rollingHash32
  have hfold : s.data.foldl hashStep 0 = s.data.foldl specHashStep 0 := by
    have : hashStep = specHashStep := by
      funext h c; exact hashStep_eq_specHashStep h c
    rw [this]
  by_cases he : s.isEmpty
  · have hs : s = "" := (String.isEmpty_iff s).mp he
    subst hs
    simp [List.foldl]
  · simp [he, hfold]

example : createHash "a" = "2p" := by decide
example : createHash "ab" = "2e9" := by decide
example : createHash "" = "0" := by decide

/-! ## Feed items and the deduplication/merge engine
(`src/assets/js/feed-manager.js`, `FeedManager.processFeedItems`,
`FeedManager.parseFeedItems`)

Items carry an ISO-8601 `published` string in the source which is only
ever compared through `new Date(...)`; it is embedded as the epoch
timestamp (`Nat`).  A JavaScript `Map` keyed by `urlHash` is embedded
as an association list with the `Map` semantics: `set` on a present key
updates the value in place keeping the key's insertion position, `set`
on an absent key appends. -/

/-- An extracted image reference (`{originalUrl, localPath, status}`),
inert metadata on an item. -/
structure ImageRef where
  originalUrl : String
  localPath : Option String
  status : String
deriving DecidableEq, Repr

/-- A feed item, as built by `FeedManager.parseFeedItems`. -/
structure Item where
  feedId : String
  title : String
  content : String
  link : String
  author : String
  /-- epoch timestamp of the ISO `published` string -/
  published : Nat
  urlHash : String
  isRead : Bool
  images : List ImageRef
deriving DecidableEq, Repr

/-- Policy constant `ITEMS_PER_FEED` (`feed-manager.js`). -/
def ITEMS_PER_FEED : Nat := 10

/-- Policy constant `MAX_RETRIES` (`feed-manager.js`). -/
def MAX_RETRIES : Nat := 3

/-- Association-list embedding of a JavaScript `Map` from `urlHash` to
item: `map.set(k, v)` with `k` present replaces the value in place;
with `k` absent it appends at the end (insertion order preserved). -/
def mapSet : List (String × Item) → String → Item → List (String × Item)
  | [], k, v => [(k, v)]
  | (k', v') :: rest, k, v =>
    if k' = k then (k', v) :: rest else (k', v') :: mapSet rest k v

/-- Lookup `map.get(k)`. -/
def mapGet : List (String × Item) → String → Option Item
  | [], _ => none
  | (k', v') :: rest, k => if k' = k then some v' else mapGet rest k

/-- Insertion `existingItemsByHash.set(item.urlHash, item)`. -/
def mapInsert (m : List (String × Item)) (it : Item) : List (String × Item) :=
  mapSet m it.urlHash it

/-- The `new Map(existingItems.map(item => [item.urlHash, item]))`
constructor: repeated `set` starting from the empty map. -/
def mapOfItems (items : List Item) : List (String × Item) :=
  items.foldl mapInsert []

/-- One iteration of the `for (const newItem of newItems)` loop in
`processFeedItems`: replace/insert when the item is unseen or strictly
newer, and raise the has-new-items flag when its hash is not in the
seen-hash ledger. -/
def mergeStep (seenHashes : List String) :
    List (String × Item) × Bool → Item → List (String × Item) × Bool
  | (m, flag), newItem =>
    match mapGet m newItem.urlHash with
    | none =>
      (mapInsert m newItem, flag || !(seenHashes.contains newItem.urlHash))
    | some existingItem =>
      if existingItem.published < newItem.published then
        (mapInsert m newItem, flag || !(seenHashes.contains newItem.urlHash))
      else
        (m, flag)

/-- Stable insertion into a list sorted by `published` descending: the
inserted element goes before the first element it is not strictly
beaten by.  Folding this over the list from the right is exactly the
(stable, ES2019) `Array.prototype.sort((a, b) => new Date(b.published)
- new Date(a.published))`. -/
def insertItem (x : Item) : List Item → List Item
  | [] => [x]
  | y :: ys => if x.published < y.published then y :: insertItem x ys else x :: y :: ys

/-- Stable sort by `published` descending. -/
def sortByPublishedDesc (l : List Item) : List Item :=
  l.foldr insertItem []

/-- The merged pool: the values of the hash-keyed map after the
insert/replace loop of `processFeedItems` (the union of existing and
new items after same-`urlHash` resolution). -/
def mergedPool (existingItems : List Item) (seenHashes : List String)
    (newItems : List Item) : List Item :=
  (newItems.foldl (mergeStep seenHashes) (mapOfItems existingItems, false)).1.map Prod.snd

/-- Embedding of `FeedManager.processFeedItems`, state-passing form: from the stored
items and seen-hash ledger for a feed and the newly parsed items, the
persisted item list, the persisted (recomputed) seen-hash ledger, and
the `hasNewItems` flag that decides the `newFeedItems` event. -/
def processFeedItems (existingItems : List Item) (seenHashes : List String)
    (newItems : List Item) : List Item × List String × Bool :=
  let phase1 := newItems.foldl (mergeStep seenHashes) (mapOfItems existingItems, false)
  let allItems := sortByPublishedDesc (phase1.1.map Prod.snd)
  let itemsToKeep := allItems.take ITEMS_PER_FEED
  let updatedHashes := itemsToKeep.map (·.urlHash)
  (itemsToKeep, updatedHashes, phase1.2)

/-! Extraction results of one RSS/Atom `item`/`entry` element: the
source reads these via `getElementText`, which yields `''` when the
element is missing, so each field is a plain string.  The date parser
(`new Date(...)`) and the image enumeration over the content HTML are
environment facilities and are passed in as functions. -/

/-- The text fields `FeedManager.parseFeedItems` reads from one entry
element (empty string when the element is absent). -/
structure XmlEntry where
  title : String
  description : String
  content : String
  link : String
  author : String
  pubDate : String
  published : String
  updated : String
deriving DecidableEq, Repr

/-- Embedding of `FeedManager.parseDate`: `pubDate` (RSS), else `published` (Atom),
else `updated` (Atom), else now; an unparseable date string is replaced
by now.  `parseDateStr` embeds `new Date(s).getTime()`, returning
`none` for `NaN`. -/
def parseDate (parseDateStr : String → Option Nat) (now : Nat) (entry : XmlEntry) : Nat :=
  let dateStr :=
    if entry.pubDate ≠ "" then entry.pubDate
    else if entry.published ≠ "" then entry.published
    else if entry.updated ≠ "" then entry.updated
    else ""
  if dateStr = "" then now
  else match parseDateStr dateStr with
    | some t => t
    | none => now

/-- The item object built for one entry in `FeedManager.parseFeedItems`
(`extractImages` embeds the `img`-enumeration over the content HTML). -/
def parseItem (parseDateStr : String → Option Nat) (extractImages : String → List ImageRef)
    (now : Nat) (feedId : String) (entry : XmlEntry) : Item :=
  { feedId := feedId
    title := entry.title
    content := if entry.description ≠ "" then entry.description else entry.content
    link := entry.link
    author := entry.author
    published := parseDate parseDateStr now entry
    urlHash := createHash entry.link
    isRead := false
    images := extractImages (if entry.description ≠ "" then entry.description else entry.content) }

/-! ### Map lemmas -/

lemma mapGet_mapSet_self (m : List (String × Item)) (k : String) (v : Item) :
    mapGet (mapSet m k v) k = some v := by
  induction m with
  | nil => simp [mapSet, mapGet]
  | cons p rest ih =>
    by_cases h : p.1 = k <;> simp [mapSet, mapGet, h, ih]

lemma mapGet_mapSet_ne (m : List (String × Item)) {k k' : String} (v : Item)
    (h : k' ≠ k) : mapGet (mapSet m k v) k' = mapGet m k' := by
  induction m with
  | nil => simp [mapSet, mapGet, Ne.symm h]
  | cons p rest ih =>
    by_cases hp : p.1 = k
    · simp [mapSet, hp, mapGet, Ne.symm h]
    · simp [mapSet, hp, mapGet, ih]

lemma mem_mapSet {m : List (String × Item)} {k : String} {v : Item} {p : String × Item}
    (h : p ∈ mapSet m k v) : p = (k, v) ∨ p ∈ m := by
  induction m with
  | nil => simpa [mapSet] using h
  | cons q rest ih =>
    by_cases hq : q.1 = k
    · have h' : p = (k, v) ∨ p ∈ rest := by simpa [mapSet, hq] using h
      rcases h' with h1 | h1
      · exact Or.inl h1
      · exact Or.inr (List.mem_cons_of_mem _ h1)
    · have h' : p = q ∨ p ∈ mapSet rest k v := by simpa [mapSet, hq] using h
      rcases h' with rfl | h1
      · exact Or.inr (List.mem_cons_self _ _)
      · rcases ih h1 with h2 | h2
        · exact Or.inl h2
        · exact Or.inr (List.mem_cons_of_mem _ h2)

lemma mapSet_keys_mem {m : List (String × Item)} {k : String} (v : Item)
    (h : k ∈ m.map Prod.fst) : (mapSet m k v).map Prod.fst = m.map Prod.fst := by
  induction m with
  | nil => simp at h
  | cons p rest ih =>
    by_cases hp : p.1 = k
    · simp [mapSet, hp]
    · have : k ∈ rest.map Prod.fst := by
        rcases List.mem_map.mp h with ⟨q, hq, hqk⟩
        rcases List.mem_cons.mp hq with rfl | hq'
        · exact absurd hqk hp
        · exact List.mem_map.mpr ⟨q, hq', hqk⟩
      simp [mapSet, hp, ih this]

lemma mapSet_keys_not_mem {m : List (String × Item)} {k : String} (v : Item)
    (h : k ∉ m.map Prod.fst) : (mapSet m k v).map Prod.fst = m.map Prod.fst ++ [k] := by
  induction m with
  | nil => simp [mapSet]
  | cons p rest ih =>
    have hp : p.1 ≠ k := by
      intro hc; exact h (by simp [hc])
    have hrest : k ∉ rest.map Prod.fst := by
      intro hc; exact h (by simp [hc])
    simp [mapSet, hp, ih hrest]

lemma mapSet_append_of_not_mem {m : List (String × Item)} {k : String} (v : Item)
    (h : k ∉ m.map Prod.fst) : mapSet m k v = m ++ [(k, v)] := by
  induction m with
  | nil => simp [mapSet]
  | cons p rest ih =>
    have hp : p.1 ≠ k := by
      intro hc; exact h (by simp [hc])
    have hrest : k ∉ rest.map Prod.fst := by
      intro hc; exact h (by simp [hc])
    simp [mapSet, hp, ih hrest]

/-- The invariant of the hash-keyed maps of `processFeedItems`: keys are
distinct and every entry is keyed by its item's `urlHash`. -/
def GoodMap (m : List (String × Item)) : Prop :=
  (m.map Prod.fst).Nodup ∧ ∀ p ∈ m, p.1 = p.2.urlHash

lemma goodMap_nil : GoodMap [] := ⟨List.nodup_nil, by simp⟩

lemma GoodMap.insert {m : List (String × Item)} (h : GoodMap m) (it : Item) :
    GoodMap (mapInsert m it) := by
  constructor
  · by_cases hk : it.urlHash ∈ m.map Prod.fst
    · rw [mapInsert, mapSet_keys_mem _ hk]; exact h.1
    · rw [mapInsert, mapSet_keys_not_mem _ hk]
      refine List.Nodup.append h.1 (List.nodup_singleton _) ?_
      intro a ha hb
      have : a = it.urlHash := by simpa using hb
      subst this
      exact hk ha
  · intro p hp
    rcases mem_mapSet hp with rfl | hp'
    · rfl
    · exact h.2 p hp'

lemma mapGet_eq_some_mem {m : List (String × Item)} {k : String} {v : Item}
    (h : mapGet m k = some v) : (k, v) ∈ m := by
  induction m with
  | nil => simp [mapGet] at h
  | cons p rest ih =>
    by_cases hp : p.1 = k
    · have hv : p.2 = v := by simpa [mapGet, hp] using h
      subst hv
      rw [← hp]
      simp
    · exact List.mem_cons_of_mem _ (ih (by simpa [mapGet, hp] using h))

lemma mem_mapGet {m : List (String × Item)} {k : String} {v : Item}
    (hg : GoodMap m) (h : (k, v) ∈ m) : mapGet m k = some v := by
  induction m with
  | nil => simp at h
  | cons p rest ih =>
    have hnodup : (p.1 :: rest.map Prod.fst).Nodup := by
      simpa only [List.map_cons] using hg.1
    rcases List.mem_cons.mp h with rfl | h'
    · simp [mapGet]
    · have hp : p.1 ≠ k := by
        intro hc
        have hkmem : k ∈ rest.map Prod.fst := List.mem_map.mpr ⟨(k, v), h', rfl⟩
        exact (List.nodup_cons.mp hnodup).1 (hc ▸ hkmem)
      have hg' : GoodMap rest :=
        ⟨(List.nodup_cons.mp hnodup).2,
          fun q hq => hg.2 q (List.mem_cons_of_mem _ hq)⟩
      simp [mapGet, hp, ih hg' h']

lemma values_hash_eq_keys {m : List (String × Item)} (hg : GoodMap m) :
    (m.map Prod.snd).map (fun it => it.urlHash) = m.map Prod.fst := by
  rw [List.map_map]
  exact (List.map_congr_left fun p hp => (hg.2 p hp).symm)

/-! ### Sorting lemmas -/

/-- Sorted by `published` descending. -/
def SortedDesc (l : List Item) : Prop :=
  l.Pairwise (fun a b => b.published ≤ a.published)

lemma insertItem_perm (x : Item) (l : List Item) : (insertItem x l).Perm (x :: l) := by
  induction l with
  | nil => simp [insertItem]
  | cons y ys ih =>
    by_cases h : x.published < y.published
    · simpa [insertItem, h] using ((ih.cons y).trans (List.Perm.swap x y ys))
    · simp [insertItem, h]

lemma sortByPublishedDesc_perm (l : List Item) : (sortByPublishedDesc l).Perm l := by
  induction l with
  | nil => simp [sortByPublishedDesc]
  | cons x xs ih =>
    have : sortByPublishedDesc (x :: xs) = insertItem x (sortByPublishedDesc xs) := rfl
    rw [this]
    exact (insertItem_perm x _).trans (ih.cons x)

lemma mem_insertItem {x y : Item} {l : List Item} (h : y ∈ insertItem x l) :
    y = x ∨ y ∈ l := by
  have := (insertItem_perm x l).mem_iff.mp h
  simpa using this

lemma insertItem_sorted {x : Item} {l : List Item} (h : SortedDesc l) :
    SortedDesc (insertItem x l) := by
  induction l with
  | nil => simp [insertItem, SortedDesc]
  | cons y ys ih =>
    rcases List.pairwise_cons.mp h with ⟨hy, hys⟩
    by_cases hxy : x.published < y.published
    · rw [insertItem, if_pos hxy]
      refine List.pairwise_cons.mpr ⟨?_, ih hys⟩
      intro z hz
      rcases mem_insertItem hz with rfl | hz'
      · exact Nat.le_of_lt hxy
      · exact hy z hz'
    · rw [insertItem, if_neg hxy]
      refine List.pairwise_cons.mpr ⟨?_, h⟩
      intro z hz
      rcases List.mem_cons.mp hz with rfl | hz'
      · exact Nat.le_of_not_lt hxy
      · exact le_trans (hy z hz') (Nat.le_of_not_lt hxy)

lemma sortByPublishedDesc_sorted (l : List Item) : SortedDesc (sortByPublishedDesc l) := by
  induction l with
  | nil => simp [sortByPublishedDesc, SortedDesc]
  | cons x xs ih => exact insertItem_sorted ih

lemma insertItem_front {x : Item} {l : List Item}
    (h : ∀ y ∈ l, y.published ≤ x.published) : insertItem x l = x :: l := by
  cases l with
  | nil => rfl
  | cons y ys =>
    have : ¬ x.published < y.published :=
      Nat.not_lt.mpr (h y (List.mem_cons_self _ _))
    rw [insertItem, if_neg this]

lemma sortByPublishedDesc_of_sorted {l : List Item} (h : SortedDesc l) :
    sortByPublishedDesc l = l := by
  induction l with
  | nil => rfl
  | cons x xs ih =>
    rcases List.pairwise_cons.mp h with ⟨hx, hxs⟩
    have : sortByPublishedDesc (x :: xs) = insertItem x (sortByPublishedDesc xs) := rfl
    rw [this, ih hxs]
    exact insertItem_front hx

/-! ### Phase-1 (insert/replace loop) invariants -/

lemma mergeStep_goodMap {seen : List String} {m : List (String × Item)} {f : Bool}
    (hg : GoodMap m) (q : Item) : GoodMap (mergeStep seen (m, f) q).1 := by
  rw [mergeStep]
  cases hmg : mapGet m q.urlHash with
  | none => exact hg.insert q
  | some e =>
    by_cases h : e.published < q.published
    · simpa [h] using hg.insert q
    · simpa [h] using hg

lemma foldl_mergeStep_goodMap {seen : List String} (l : List Item)
    {m : List (String × Item)} {f : Bool} (hg : GoodMap m) :
    GoodMap ((l.foldl (mergeStep seen) (m, f)).1) := by
  induction l generalizing m f with
  | nil => simpa using hg
  | cons q rest ih =>
    rw [List.foldl_cons]
    have h1 : GoodMap (mergeStep seen (m, f) q).1 := mergeStep_goodMap hg q
    have : mergeStep seen (m, f) q = ((mergeStep seen (m, f) q).1, (mergeStep seen (m, f) q).2) := rfl
    rw [this]
    exact ih h1

lemma mapOfItems_goodMap (items : List Item) : GoodMap (mapOfItems items) := by
  have gen : ∀ m, GoodMap m → GoodMap (items.foldl mapInsert m) := by
    induction items with
    | nil => intro m hm; simpa using hm
    | cons it rest ih =>
      intro m hm
      rw [List.foldl_cons]
      exact ih _ (hm.insert it)
  exact gen [] goodMap_nil

/-- After the insert/replace loop, the entry stored at a hash only ever
has a `published` at least `x` if it did before the step. -/
def EntryGe (m : List (String × Item)) (h : String) (x : Nat) : Prop :=
  ∃ e, mapGet m h = some e ∧ x ≤ e.published

lemma mergeStep_entryGe {seen : List String} {m : List (String × Item)} {f : Bool}
    {h : String} {x : Nat} (he : EntryGe m h x) (q : Item) :
    EntryGe (mergeStep seen (m, f) q).1 h x := by
  obtain ⟨e, hget, hx⟩ := he
  rw [mergeStep]
  by_cases hq : h = q.urlHash
  · subst hq
    rw [hget]
    by_cases hlt : e.published < q.published
    · exact ⟨q, by simpa [hlt, mapInsert] using mapGet_mapSet_self m q.urlHash q,
        le_of_lt (lt_of_le_of_lt hx hlt)⟩
    · exact ⟨e, by simp [hlt, hget], hx⟩
  · cases hmg : mapGet m q.urlHash with
    | none =>
      exact ⟨e, by simpa [mapInsert] using (mapGet_mapSet_ne m q hq).trans hget, hx⟩
    | some e' =>
      by_cases hlt : e'.published < q.published
      · exact ⟨e, by simpa [hlt, mapInsert] using (mapGet_mapSet_ne m q hq).trans hget, hx⟩
      · exact ⟨e, by simp [hlt, hget], hx⟩

lemma foldl_mergeStep_entryGe {seen : List String} (l : List Item)
    {m : List (String × Item)} {f : Bool} {h : String} {x : Nat}
    (he : EntryGe m h x) : EntryGe ((l.foldl (mergeStep seen) (m, f)).1) h x := by
  induction l generalizing m f with
  | nil => simpa using he
  | cons q rest ih =>
    rw [List.foldl_cons]
    have heq : mergeStep seen (m, f) q = ((mergeStep seen (m, f) q).1, (mergeStep seen (m, f) q).2) := rfl
    rw [heq]
    exact ih (mergeStep_entryGe he q)

lemma mergeStep_self_entryGe {seen : List String} {m : List (String × Item)} {f : Bool}
    (q : Item) : EntryGe (mergeStep seen (m, f) q).1 q.urlHash q.published := by
  rw [mergeStep]
  cases hmg : mapGet m q.urlHash with
  | none =>
    exact ⟨q, by simpa [mapInsert] using mapGet_mapSet_self m q.urlHash q, le_refl _⟩
  | some e =>
    by_cases hlt : e.published < q.published
    · exact ⟨q, by simpa [hlt, mapInsert] using mapGet_mapSet_self m q.urlHash q, le_refl _⟩
    · exact ⟨e, by simp [hlt, hmg], Nat.le_of_not_lt hlt⟩

lemma phase1_entryGe (seen : List String) {l : List Item} {p : Item} (hp : p ∈ l)
    (m : List (String × Item)) (f : Bool) :
    EntryGe ((l.foldl (mergeStep seen) (m, f)).1) p.urlHash p.published := by
  induction l generalizing m f with
  | nil => simp at hp
  | cons q rest ih =>
    rw [List.foldl_cons]
    have heq : mergeStep seen (m, f) q = ((mergeStep seen (m, f) q).1, (mergeStep seen (m, f) q).2) := rfl
    rcases List.mem_cons.mp hp with rfl | hp'
    · rw [heq]
      exact foldl_mergeStep_entryGe rest (mergeStep_self_entryGe p)
    · rw [heq]
      exact ih hp' _ _

/-! ### Facts about `processFeedItems` -/

lemma processFeedItems_fst (existing : List Item) (seen : List String) (newItems : List Item) :
    (processFeedItems existing seen newItems).1 =
      (sortByPublishedDesc (mergedPool existing seen newItems)).take ITEMS_PER_FEED := rfl

lemma processFeedItems_ledger (existing : List Item) (seen : List String) (newItems : List Item) :
    (processFeedItems existing seen newItems).2.1 =
      (processFeedItems existing seen newItems).1.map (fun it => it.urlHash) := rfl

lemma processFeedItems_length_le (existing : List Item) (seen : List String) (newItems : List Item) :
    (processFeedItems existing seen newItems).1.length ≤ ITEMS_PER_FEED := by
  rw [processFeedItems_fst]
  exact List.length_take_le ITEMS_PER_FEED _

lemma processFeedItems_sorted (existing : List Item) (seen : List String) (newItems : List Item) :
    SortedDesc (processFeedItems existing seen newItems).1 := by
  rw [processFeedItems_fst]
  exact (sortByPublishedDesc_sorted _).sublist (List.take_sublist _ _)

lemma mergedPool_hash_nodup (existing : List Item) (seen : List String) (newItems : List Item) :
    ((mergedPool existing seen newItems).map (fun it => it.urlHash)).Nodup := by
  have hg : GoodMap (newItems.foldl (mergeStep seen) (mapOfItems existing, false)).1 :=
    foldl_mergeStep_goodMap newItems (mapOfItems_goodMap existing)
  rw [mergedPool, values_hash_eq_keys hg]
  exact hg.1

lemma processFeedItems_hash_nodup (existing : List Item) (seen : List String) (newItems : List Item) :
    ((processFeedItems existing seen newItems).1.map (fun it => it.urlHash)).Nodup := by
  rw [processFeedItems_fst]
  have hperm : ((sortByPublishedDesc (mergedPool existing seen newItems)).map
      (fun it => it.urlHash)).Perm ((mergedPool existing seen newItems).map (fun it => it.urlHash)) :=
    (sortByPublishedDesc_perm _).map _
  have hnodup := (mergedPool_hash_nodup existing seen newItems).perm hperm.symm
  exact hnodup.sublist ((List.take_sublist _ _).map _)

lemma processFeedItems_mem_pool {existing : List Item} {seen : List String} {newItems : List Item}
    {a : Item} (ha : a ∈ (processFeedItems existing seen newItems).1) :
    a ∈ mergedPool existing seen newItems := by
  rw [processFeedItems_fst] at ha
  exact (sortByPublishedDesc_perm _).mem_iff.mp (List.mem_of_mem_take ha)

lemma processFeedItems_length_eq (existing : List Item) (seen : List String) (newItems : List Item) :
    (processFeedItems existing seen newItems).1.length =
      min ITEMS_PER_FEED (mergedPool existing seen newItems).length := by
  rw [processFeedItems_fst, List.length_take,
    (sortByPublishedDesc_perm (mergedPool existing seen newItems)).length_eq]

/-- The retained items are the most recent: any pool item that is not
retained is no newer than any retained item. -/
lemma processFeedItems_most_recent {existing : List Item} {seen : List String}
    {newItems : List Item} {b : Item} (hb : b ∈ mergedPool existing seen newItems)
    (hbk : b ∉ (processFeedItems existing seen newItems).1) :
    ∀ a ∈ (processFeedItems existing seen newItems).1, b.published ≤ a.published := by
  intro a ha
  set pool := mergedPool existing seen newItems with hpool
  have hsplit : (sortByPublishedDesc pool).take ITEMS_PER_FEED ++
      (sortByPublishedDesc pool).drop ITEMS_PER_FEED = sortByPublishedDesc pool :=
    List.take_append_drop _ _
  have hbsort : b ∈ sortByPublishedDesc pool := (sortByPublishedDesc_perm pool).mem_iff.mpr hb
  have hbdrop : b ∈ (sortByPublishedDesc pool).drop ITEMS_PER_FEED := by
    rcases List.mem_append.mp (hsplit ▸ hbsort) with h1 | h1
    · exact absurd (by simpa [processFeedItems_fst] using h1) hbk
    · exact h1
  have hsorted : SortedDesc (sortByPublishedDesc pool) := sortByPublishedDesc_sorted pool
  rw [← hsplit] at hsorted
  have := (List.pairwise_append.mp hsorted).2.2
  exact this a (by simpa [processFeedItems_fst] using ha) b hbdrop

/-- A retained item with the same hash as a processed new item is at
least as recent as that new item (the insert/replace loop only ever
improves the timestamp stored at a hash). -/
lemma processFeedItems_dominates {existing : List Item} {seen : List String}
    {newItems : List Item} {p e : Item} (hp : p ∈ newItems)
    (he : e ∈ (processFeedItems existing seen newItems).1)
    (hhash : e.urlHash = p.urlHash) : p.published ≤ e.published := by
  have hg : GoodMap (newItems.foldl (mergeStep seen) (mapOfItems existing, false)).1 :=
    foldl_mergeStep_goodMap newItems (mapOfItems_goodMap existing)
  have hepool : e ∈ mergedPool existing seen newItems := processFeedItems_mem_pool he
  rw [mergedPool] at hepool
  rcases List.mem_map.mp hepool with ⟨q, hq, hqe⟩
  have hkey : q.1 = e.urlHash := by rw [← hqe]; exact hg.2 q hq
  have hget : mapGet (newItems.foldl (mergeStep seen) (mapOfItems existing, false)).1 e.urlHash
      = some e := by
    have : (e.urlHash, e) ∈ (newItems.foldl (mergeStep seen) (mapOfItems existing, false)).1 := by
      have : q = (e.urlHash, e) := by
        cases q
        simp only [Prod.mk.injEq]
        exact ⟨hkey, hqe⟩
      exact this ▸ hq
    exact mem_mapGet hg this
  obtain ⟨e', hget', hle⟩ := phase1_entryGe seen hp (mapOfItems existing) false
  rw [← hhash] at hget'
  rw [hget] at hget'
  have : e = e' := by injection hget'
  exact this ▸ hle

/-! ### Re-merge (idempotence) machinery -/

lemma foldl_mapInsert_fresh {l : List Item} :
    ∀ m, (∀ it ∈ l, it.urlHash ∉ m.map Prod.fst) →
    ((l.map (fun it => it.urlHash)).Nodup) →
    l.foldl mapInsert m = m ++ l.map (fun it => (it.urlHash, it)) := by
  induction l with
  | nil => intro m _ _; simp
  | cons it rest ih =>
    intro m hfresh hnodup
    rw [List.foldl_cons, mapInsert, mapSet_append_of_not_mem it (hfresh it (List.mem_cons_self _ _))]
    have hnodup2 : (it.urlHash :: rest.map (fun x => x.urlHash)).Nodup := by
      simpa using hnodup
    have hhead : it.urlHash ∉ rest.map (fun x => x.urlHash) := (List.nodup_cons.mp hnodup2).1
    have hnodup' : ((rest.map (fun it => it.urlHash)).Nodup) := (List.nodup_cons.mp hnodup2).2
    have hfresh' : ∀ x ∈ rest, x.urlHash ∉ (m ++ [(it.urlHash, it)]).map Prod.fst := by
      intro x hx
      simp only [List.map_append, List.mem_append]
      rintro (hc | hc)
      · exact hfresh x (List.mem_cons_of_mem _ hx) hc
      · have hxeq : x.urlHash = it.urlHash := by simpa using hc
        exact hhead (hxeq ▸ List.mem_map.mpr ⟨x, hx, rfl⟩)
    rw [ih (m ++ [(it.urlHash, it)]) hfresh' hnodup']
    simp

lemma mapOfItems_of_nodup {l : List Item} (h : (l.map (fun it => it.urlHash)).Nodup) :
    mapOfItems l = l.map (fun it => (it.urlHash, it)) := by
  rw [mapOfItems, foldl_mapInsert_fresh [] (by simp) h]
  simp

lemma mergeStep_noop {seen : List String} {m : List (String × Item)} {f : Bool} {q e : Item}
    (hget : mapGet m q.urlHash = some e) (hpub : ¬ e.published < q.published) :
    mergeStep seen (m, f) q = (m, f) := by
  rw [mergeStep, hget]
  simp [hpub]

lemma foldl_mergeStep_noop {seen : List String} {l : List Item} {m : List (String × Item)}
    {f : Bool} (H : ∀ q ∈ l, ∃ e, mapGet m q.urlHash = some e ∧ q.published ≤ e.published) :
    l.foldl (mergeStep seen) (m, f) = (m, f) := by
  induction l with
  | nil => rfl
  | cons q rest ih =>
    obtain ⟨e, hget, hle⟩ := H q (List.mem_cons_self _ _)
    rw [List.foldl_cons, mergeStep_noop hget (Nat.not_lt.mpr hle)]
    exact ih fun q' hq' => H q' (List.mem_cons_of_mem _ hq')

/-! ### Claim theorems for the merge engine -/

/-- C1.  After any merge (`processFeedItems`): the persisted stored
item count is at most `ITEMS_PER_FEED`; the persisted seen-hash ledger
is exactly the `urlHash` list of the retained items (so hashes of
evicted items drop out); no two retained items share a `urlHash`; and
the retained items are exactly the most recent, by `published`, of the
union of existing and new items after same-`urlHash` resolution (the
merged pool): every retained item is in the pool, as many pool items as
the cap allows are retained, and no unretained pool item is newer than
any retained one. -/
theorem processFeedItems_cap_dedup_ledger (existing : List Item) (seen : List String)
    (newItems : List Item) :
    (processFeedItems existing seen newItems).1.length ≤ ITEMS_PER_FEED
    ∧ (processFeedItems existing seen newItems).2.1 =
        (processFeedItems existing seen newItems).1.map (fun it => it.urlHash)
    ∧ ((processFeedItems existing seen newItems).1.map (fun it => it.urlHash)).Nodup
    ∧ (processFeedItems existing seen newItems).1.length =
        min ITEMS_PER_FEED (mergedPool existing seen newItems).length
    ∧ (∀ a ∈ (processFeedItems existing seen newItems).1, a ∈ mergedPool existing seen newItems)
    ∧ (∀ b ∈ mergedPool existing seen newItems,
        b ∉ (processFeedItems existing seen newItems).1 →
        ∀ a ∈ (processFeedItems existing seen newItems).1, b.published ≤ a.published) :=
  ⟨processFeedItems_length_le existing seen newItems,
   processFeedItems_ledger existing seen newItems,
   processFeedItems_hash_nodup existing seen newItems,
   processFeedItems_length_eq existing seen newItems,
   fun _ ha => processFeedItems_mem_pool ha,
   fun _ hb hbk => processFeedItems_most_recent hb hbk⟩

/-- Concrete data: ten stored items (filling the cap) and one older
parsed item, used to exercise the merge on explicit inputs. -/
def testItem (h : String) (pub : Nat) : Item :=
  { feedId := "feed1", title := "t", content := "c", link := "l", author := "a",
    published := pub, urlHash := h, isRead := false, images := [] }

def storedTen : List Item :=
  [testItem "h1" 101, testItem "h2" 102, testItem "h3" 103, testItem "h4" 104,
   testItem "h5" 105, testItem "h6" 106, testItem "h7" 107, testItem "h8" 108,
   testItem "h9" 109, testItem "h10" 110]

def ledgerTen : List String := storedTen.map (fun it => it.urlHash)

def oldParsed : List Item := [testItem "p1" 1]

theorem processFeedItems_cap_dedup_ledger_witness :
    (processFeedItems storedTen ledgerTen oldParsed).1.length ≤ ITEMS_PER_FEED :=
  (processFeedItems_cap_dedup_ledger storedTen ledgerTen oldParsed).1

/-- C2 counterexample.  Merging the single old item `p1` into ten
newer stored items evicts it (its hash never enters the ledger), so
re-merging the same parsed list raises `hasNewItems` again — the second
call does emit a `newFeedItems` event even though the stored set and
ledger are unchanged, contradicting the claim that the second merge
produces no "new items" flag. -/
theorem processFeedItems_remerge_flag_counterexample :
    (processFeedItems
        (processFeedItems storedTen ledgerTen oldParsed).1
        (processFeedItems storedTen ledgerTen oldParsed).2.1
        oldParsed).2.2 = true
    ∧ (processFeedItems
        (processFeedItems storedTen ledgerTen oldParsed).1
        (processFeedItems storedTen ledgerTen oldParsed).2.1
        oldParsed).1 = (processFeedItems storedTen ledgerTen oldParsed).1
    ∧ (processFeedItems
        (processFeedItems storedTen ledgerTen oldParsed).1
        (processFeedItems storedTen ledgerTen oldParsed).2.1
        oldParsed).2.1 = (processFeedItems storedTen ledgerTen oldParsed).2.1 := by
  decide

/-- C2 (amended).  Re-merging the same parsed item list into the state
produced by a first merge leaves the stored set and ledger identical
and raises no "new items" flag, PROVIDED no parsed item was evicted by
the cap in the first merge (its `urlHash` made it into the persisted
ledger).  A parsed item whose hash was evicted raises the flag again on
the second merge (see the counterexample). -/
theorem processFeedItems_remerge_idempotent (S0 : List Item) (L0 : List String)
    (P : List Item)
    (hp : ∀ p ∈ P, p.urlHash ∈ (processFeedItems S0 L0 P).2.1) :
    processFeedItems (processFeedItems S0 L0 P).1 (processFeedItems S0 L0 P).2.1 P
      = ((processFeedItems S0 L0 P).1, (processFeedItems S0 L0 P).2.1, false) := by
  have hnodup : ((processFeedItems S0 L0 P).1.map (fun it => it.urlHash)).Nodup :=
    processFeedItems_hash_nodup S0 L0 P
  have hm0 : mapOfItems (processFeedItems S0 L0 P).1 =
      (processFeedItems S0 L0 P).1.map (fun it => (it.urlHash, it)) :=
    mapOfItems_of_nodup hnodup
  have H : ∀ q ∈ P, ∃ e, mapGet (mapOfItems (processFeedItems S0 L0 P).1) q.urlHash = some e
      ∧ q.published ≤ e.published := by
    intro q hq
    have hqmem : q.urlHash ∈ (processFeedItems S0 L0 P).1.map (fun it => it.urlHash) := by
      rw [← processFeedItems_ledger]
      exact hp q hq
    rcases List.mem_map.mp hqmem with ⟨e, he, hhash⟩
    refine ⟨e, ?_, processFeedItems_dominates hq he hhash⟩
    have hpair : (q.urlHash, e) ∈ mapOfItems (processFeedItems S0 L0 P).1 := by
      rw [hm0, ← hhash]
      exact List.mem_map.mpr ⟨e, he, rfl⟩
    exact mem_mapGet (mapOfItems_goodMap _) hpair
  have hphase : P.foldl (mergeStep (processFeedItems S0 L0 P).2.1)
      (mapOfItems (processFeedItems S0 L0 P).1, false)
      = (mapOfItems (processFeedItems S0 L0 P).1, false) :=
    foldl_mergeStep_noop H
  have hvals : (mapOfItems (processFeedItems S0 L0 P).1).map Prod.snd =
      (processFeedItems S0 L0 P).1 := by
    rw [hm0]
    induction (processFeedItems S0 L0 P).1 with
    | nil => rfl
    | cons x xs ih => simp only [List.map_cons, ih]
  have hsorted := processFeedItems_sorted S0 L0 P
  have hlen := processFeedItems_length_le S0 L0 P
  have hled := processFeedItems_ledger S0 L0 P
  set S1 := (processFeedItems S0 L0 P).1 with hS1
  set L1 := (processFeedItems S0 L0 P).2.1 with hL1
  unfold processFeedItems
  rw [hphase]
  change (List.take ITEMS_PER_FEED (sortByPublishedDesc (List.map Prod.snd (mapOfItems S1))),
      List.map (fun x => x.urlHash)
        (List.take ITEMS_PER_FEED (sortByPublishedDesc (List.map Prod.snd (mapOfItems S1)))),
      false) = (S1, L1, false)
  rw [hvals, sortByPublishedDesc_of_sorted hsorted,
    List.take_of_length_le hlen, ← hled]

theorem processFeedItems_remerge_idempotent_witness :
    processFeedItems
        (processFeedItems [] [] [testItem "h1" 5]).1
        (processFeedItems [] [] [testItem "h1" 5]).2.1
        [testItem "h1" 5]
      = ((processFeedItems [] [] [testItem "h1" 5]).1,
         (processFeedItems [] [] [testItem "h1" 5]).2.1, false) :=
  processFeedItems_remerge_idempotent [] [] [testItem "h1" 5] (by decide)

/-- C10.  The parser constructs every item with `isRead = false`, and
when a newly parsed item shares a `urlHash` with a stored item but has
a strictly later `published`, the stored item is replaced wholesale by
the parsed item (the stored `isRead` flag is discarded with the rest of
the record), so a previously read item re-published later becomes
unread again. -/
theorem parseItem_unread_and_replace_wholesale :
    (∀ (pd : String → Option Nat) (ex : String → List ImageRef) (now : Nat)
        (fid : String) (entry : XmlEntry), (parseItem pd ex now fid entry).isRead = false)
    ∧ (∀ (e p : Item) (seen : List String), e.urlHash = p.urlHash →
        e.published < p.published → (processFeedItems [e] seen [p]).1 = [p]) := by
  constructor
  · intro pd ex now fid entry
    rfl
  · intro e p seen hhash hpub
    simp [processFeedItems, mapOfItems, mapInsert, mapSet, mergeStep, mapGet,
      hhash, hpub, sortByPublishedDesc, insertItem, ITEMS_PER_FEED]

theorem parseItem_unread_and_replace_wholesale_witness :
    (processFeedItems
        [{ testItem "h1" 5 with isRead := true }] ["h1"] [testItem "h1" 9]).1
      = [testItem "h1" 9] :=
  parseItem_unread_and_replace_wholesale.2
    { testItem "h1" 5 with isRead := true } (testItem "h1" 9) ["h1"] rfl (by decide)

/-! ## Fetch scheduler (`feed-manager.js`, `FeedManager.fetchFeed`,
`FeedManager.fetchAllFeeds`)

The error/retry handling of `fetchFeed` and the queue construction of
`fetchAllFeeds` are embedded as a step function on the per-feed record
plus a fuel-indexed run of one sweep in which every fetch attempt for
the feed fails (the interleaving of other feeds' jobs does not touch
this feed's record, so the single-feed trace captures the claim). -/

inductive FeedStatus where
  | active
  | error
deriving DecidableEq, Repr

/-- The per-feed record kept in `this.feeds` (and, while queued, in
`this.fetchQueue` with the added `retryCount`). -/
structure Feed where
  id : String
  url : String
  title : String
  lastFetchTime : Nat
  errorCount : Nat
  retryCount : Nat
  status : FeedStatus
  lastError : Option String
deriving DecidableEq, Repr

/-- Events emitted through the pubsub bus that the claims mention. -/
inductive FMEvent where
  | feedError (feedId : String) (msg : String)
  | newFeedItems (feedId : String) (count : Nat)
deriving DecidableEq, Repr

/-- The `catch` branch of `FeedManager.fetchFeed`: increment
`errorCount`, record `lastError`; at `MAX_RETRIES` errors transition to
the terminal `error` status and emit `feedError` (once); below it,
increment `retryCount` and requeue.  Returns the updated feed record,
whether the feed is pushed back onto the queue, and the events
emitted. -/
def fetchFeedFail (msg : String) (feed : Feed) : Feed × Bool × List FMEvent :=
  let ec := feed.errorCount + 1
  let feed1 := { feed with errorCount := ec, lastError := some msg }
  if MAX_RETRIES ≤ ec then
    ({ feed1 with status := .error },
     false,
     [.feedError feed.id ("Failed to fetch feed after 3 attempts: " ++ msg)])
  else if feed1.retryCount < MAX_RETRIES then
    ({ feed1 with retryCount := feed1.retryCount + 1 }, true, [])
  else
    (feed1, false, [])

/-- The `try` branch of `FeedManager.fetchFeed` on success: reset
`errorCount`, stamp `lastFetchTime`, stay `active`. -/
def fetchFeedSuccess (now : Nat) (feed : Feed) : Feed :=
  { feed with lastFetchTime := now, errorCount := 0, status := .active }

/-- One sweep's worth of attempts for a single feed when every fetch of
that feed fails: the feed is re-processed as long as `fetchFeedFail`
requeues it.  Fuel bounds the recursion; three units suffice. -/
def runFailSweep (msg : String) : Nat → Feed → Feed × List FMEvent
  | 0, f => (f, [])
  | fuel + 1, f =>
    let step := fetchFeedFail msg f
    if step.2.1 then
      let rest := runFailSweep msg fuel step.1
      (rest.1, step.2.2 ++ rest.2)
    else (step.1, step.2.2)

/-- Embedding of `FeedManager.fetchAllFeeds`: the sweep queue holds exactly the
feeds whose status is `active`, each with `retryCount` reset to 0. -/
def fetchAllFeedsQueue (feeds : List Feed) : List Feed :=
  (feeds.filter (fun f => f.status == .active)).map (fun f => { f with retryCount := 0 })

/-- C3.  A feed that fails `MAX_RETRIES` (3) consecutive fetch attempts
within one sweep ends the sweep in the terminal `error` status with a
single `feedError` event emitted for the exhaustion; and the queue
built by `fetchAllFeeds` for any sweep contains only feeds whose status
is `active`, so an `error`-status feed is never enqueued in a
subsequent sweep. -/
theorem fetchFeed_retry_exhaustion_terminal (f : Feed) (msg : String) (fuel : Nat)
    (_hstatus : f.status = .active) (hec : f.errorCount = 0) (hrc : f.retryCount = 0)
    (hfuel : 3 ≤ fuel) :
    (runFailSweep msg fuel f).1.status = .error
    ∧ (runFailSweep msg fuel f).2
        = [.feedError f.id ("Failed to fetch feed after 3 attempts: " ++ msg)]
    ∧ (∀ feeds : List Feed, ∀ q ∈ fetchAllFeedsQueue feeds, q.status = .active) := by
  obtain ⟨n, rfl⟩ : ∃ n, fuel = n + 3 := ⟨fuel - 3, by omega⟩
  refine ⟨?_, ?_, ?_⟩
  · show (runFailSweep msg (n + 3) f).1.status = .error
    simp [runFailSweep, fetchFeedFail, hec, hrc, MAX_RETRIES]
  · show (runFailSweep msg (n + 3) f).2 = _
    simp [runFailSweep, fetchFeedFail, hec, hrc, MAX_RETRIES]
  · intro feeds q hq
    rcases List.mem_map.mp hq with ⟨g, hg, rfl⟩
    have := List.of_mem_filter hg
    simpa using this

theorem fetchFeed_retry_exhaustion_terminal_witness :
    (runFailSweep "network down" 3
        { id := "feedA", url := "https://a.test/feed", title := "A", lastFetchTime := 0,
          errorCount := 0, retryCount := 0, status := .active, lastError := none }).1.status
      = .error
    ∧ (runFailSweep "network down" 3
        { id := "feedA", url := "https://a.test/feed", title := "A", lastFetchTime := 0,
          errorCount := 0, retryCount := 0, status := .active, lastError := none }).2
      = [.feedError "feedA" ("Failed to fetch feed after 3 attempts: " ++ "network down")]
    ∧ (∀ feeds : List Feed, ∀ q ∈ fetchAllFeedsQueue feeds, q.status = .active) :=
  fetchFeed_retry_exhaustion_terminal
    { id := "feedA", url := "https://a.test/feed", title := "A", lastFetchTime := 0,
      errorCount := 0, retryCount := 0, status := .active, lastError := none }
    "network down" 3 rfl rfl rfl (by decide)

/-! ## Storage adapter
(`src/js/core/storage/StorageAdapter.js`: base-class validation and
metadata helpers; the SQLite-backed `ElectronStorageAdapter` as the
concrete backend, whose per-namespace tables are keyed by
`getTableName`). -/

/-- A serialisable JSON value (what survives `JSON.stringify` /
`JSON.parse`). -/
inductive JsonValue where
  | null
  | boolean (b : Bool)
  | number (n : Int)
  | str (s : String)
  | arr (elems : List JsonValue)
  | obj (fields : List (String × JsonValue))

/-- A candidate storage value as seen by `validateValue`: `undefined`,
a function, a value on which `JSON.stringify` throws (a cyclic
structure), or a serialisable JSON value. -/
inductive StoreValue where
  | undef
  | func
  | cyclic
  | json (v : JsonValue)

/-- Characters allowed by the key rule `^[a-zA-Z0-9-_]+$`. -/
def isKeyChar (c : Char) : Bool := c.isAlphanum || c == '-' || c == '_'

/-- Characters allowed by the namespace rule `^[a-z0-9-]+$`. -/
def isNsChar (c : Char) : Bool := (decide ('a' ≤ c) && decide (c ≤ 'z')) || c.isDigit || c == '-'

/-- Embedding of `StorageAdapter.validateKey`: `none` on success, the thrown error
message otherwise.  (The `typeof key !== 'string'` check is a typing
triviality in this embedding.) -/
def validateKey (key : String) : Option String :=
  if key.length = 0 then some "Storage key cannot be empty"
  else if 255 < key.length then some "Storage key cannot be longer than 255 characters"
  else if !key.data.all isKeyChar then
    some "Storage key can only contain alphanumeric characters, dashes, and underscores"
  else none

/-- Embedding of `StorageAdapter.validateNamespace`. -/
def validateNamespace (ns : String) : Option String :=
  if ns.length = 0 then some "Namespace cannot be empty"
  else if 50 < ns.length then some "Namespace cannot be longer than 50 characters"
  else if !ns.data.all isNsChar then
    some "Namespace can only contain lowercase alphanumeric characters and dashes"
  else none

/-- Embedding of `StorageAdapter.validateValue`: rejects `undefined`, functions, and
values on which `JSON.stringify` throws. -/
def validateValue : StoreValue → Option String
  | .undef => some "Storage value cannot be undefined"
  | .func => some "Storage value must be JSON serializable"
  | .cyclic => some "Storage value must be JSON serializable"
  | .json _ => none

/-- Per-entry metadata (`StorageMetadata`). -/
structure StorageMetadata where
  version : Nat
  created : Nat
  updated : Nat
  schema : String
deriving DecidableEq, Repr

/-- Embedding of `StorageAdapter.createMetadata` (the `set` paths call it with the
default schema `'default'`). -/
def createMetadata (now : Nat) (schema : String) : StorageMetadata :=
  { version := 1, created := now, updated := now, schema := schema }

/-- Embedding of `StorageAdapter.updateMetadata`: bump `version`, stamp `updated`,
keep `created`; `schema || metadata.schema` keeps the old schema when
the argument is absent or the empty string. -/
def updateMetadata (now : Nat) (md : StorageMetadata) (schema : Option String) : StorageMetadata :=
  { md with
    updated := now
    schema := match schema with
      | some s => if s = "" then md.schema else s
      | none => md.schema
    version := md.version + 1 }

/-- A stored record `{ value, metadata }`. -/
structure StorageRecord where
  value : StoreValue
  metadata : StorageMetadata

/-- The SQLite database state: table name, then key, to record. -/
def EStore : Type := String → String → Option StorageRecord

/-- Embedding of `ElectronStorageAdapter.getTableName`. -/
def getTableName (ns : String) : String :=
  if ns = "default" then "default_namespace" else "namespace_" ++ ns

/-- A backend operation, for tracing what I/O an adapter call
performed. -/
inductive BackendOp where
  | ensureNamespace (ns : String)
  | read (table : String) (key : String)
  | write (table : String) (key : String)
deriving DecidableEq, Repr

/-- The storage error taxonomy relevant here: `ValidationError` versus
a wrapped backend failure (`StorageError`). -/
inductive StorageError where
  | validation (msg : String)
  | backend (msg : String)
deriving DecidableEq, Repr

/-- Result of a `set` call: the resulting database state, the error (if
any), and the backend operations performed. -/
structure SetResult where
  store : EStore
  error : Option StorageError
  ops : List BackendOp

/-- Embedding of `ElectronStorageAdapter.set` (the browser adapter's `set` is the
same algorithm over per-namespace object stores): validate key, value,
namespace — in that order, before any backend I/O — then read the
existing record for its metadata and write the new record with created
or updated metadata. -/
def esSet (st : EStore) (now : Nat) (key : String) (v : StoreValue) (ns : String) : SetResult :=
  match validateKey key with
  | some m => ⟨st, some (.validation m), []⟩
  | none =>
    match validateValue v with
    | some m => ⟨st, some (.validation m), []⟩
    | none =>
      match validateNamespace ns with
      | some m => ⟨st, some (.validation m), []⟩
      | none =>
        let tbl := getTableName ns
        let record : StorageRecord :=
          { value := v
            metadata := match st tbl key with
              | some r => updateMetadata now r.metadata none
              | none => createMetadata now "default" }
        ⟨fun t k => if t = tbl && k = key then some record else st t k,
         none,
         [.ensureNamespace ns, .read tbl key, .write tbl key]⟩

/-- Embedding of `ElectronStorageAdapter.get`: validate, then read; an absent row is
`null`. -/
def esGet (st : EStore) (key ns : String) : Except StorageError (Option StoreValue) :=
  match validateKey key with
  | some m => .error (.validation m)
  | none =>
    match validateNamespace ns with
    | some m => .error (.validation m)
    | none =>
      match st (getTableName ns) key with
      | none => .ok none
      | some r => .ok (some r.value)

lemma getTableName_inj {ns1 ns2 : String} (h12 : ns1 ≠ ns2) :
    getTableName ns1 ≠ getTableName ns2 := by
  have keyfact : ∀ ns : String, ns ≠ "default" →
      getTableName ns = "namespace_" ++ ns := by
    intro ns h
    simp [getTableName, h]
  have hdef : getTableName "default" = "default_namespace" := rfl
  by_cases h1 : ns1 = "default" <;> by_cases h2 : ns2 = "default"
  · exact absurd (h1.trans h2.symm) h12
  · rw [h1, hdef, keyfact ns2 h2]
    intro hc
    have hd := congrArg String.data hc
    rw [String.data_append] at hd
    rw [show ("default_namespace" : String).data
        = ['d', 'e', 'f', 'a', 'u', 'l', 't', '_', 'n', 'a', 'm', 'e', 's', 'p', 'a', 'c', 'e']
        from rfl,
      show ("namespace_" : String).data
        = ['n', 'a', 'm', 'e', 's', 'p', 'a', 'c', 'e', '_'] from rfl] at hd
    simp at hd
  · rw [h2, hdef, keyfact ns1 h1]
    intro hc
    have hd := congrArg String.data hc
    rw [String.data_append] at hd
    rw [show ("default_namespace" : String).data
        = ['d', 'e', 'f', 'a', 'u', 'l', 't', '_', 'n', 'a', 'm', 'e', 's', 'p', 'a', 'c', 'e']
        from rfl,
      show ("namespace_" : String).data
        = ['n', 'a', 'm', 'e', 's', 'p', 'a', 'c', 'e', '_'] from rfl] at hd
    simp at hd
  · rw [keyfact ns1 h1, keyfact ns2 h2]
    intro hc
    apply h12
    have hd := congrArg String.data hc
    rw [String.data_append, String.data_append] at hd
    have hcancel := List.append_cancel_left hd
    cases ns1 with
    | mk d1 =>
      cases ns2 with
      | mk d2 => exact congrArg String.mk (by simpa using hcancel)

/-! ### Storage claim theorems -/

/-- C4.  For a valid key, value, and namespace, `set` succeeds; if the
key is new its metadata is created with `version = 1` and
`created = updated = now`; if the key exists the new metadata has
`version` exactly one greater, `created` unchanged, `updated` stamped
to this write's time — so `version` strictly increases across any
sequence of writes to one key. -/
theorem storage_set_metadata_versioning (st : EStore) (now : Nat) (k : String)
    (v : StoreValue) (ns : String)
    (hk : validateKey k = none) (hv : validateValue v = none)
    (hns : validateNamespace ns = none) :
    (esSet st now k v ns).error = none
    ∧ (st (getTableName ns) k = none →
        (esSet st now k v ns).store (getTableName ns) k
          = some { value := v,
                   metadata := { version := 1, created := now, updated := now,
                                 schema := "default" } })
    ∧ (∀ r0, st (getTableName ns) k = some r0 →
        (esSet st now k v ns).store (getTableName ns) k
          = some { value := v,
                   metadata := { version := r0.metadata.version + 1,
                                 created := r0.metadata.created,
                                 updated := now,
                                 schema := r0.metadata.schema } })
    ∧ (∀ r0 r1, st (getTableName ns) k = some r0 →
        (esSet st now k v ns).store (getTableName ns) k = some r1 →
        r0.metadata.version < r1.metadata.version) := by
  refine ⟨?_, ?_, ?_, ?_⟩
  · simp [esSet, hk, hv, hns]
  · intro hnone
    simp [esSet, hk, hv, hns, hnone, createMetadata]
  · intro r0 hr0
    simp [esSet, hk, hv, hns, hr0, updateMetadata]
  · intro r0 r1 hr0 hr1
    have : (esSet st now k v ns).store (getTableName ns) k
        = some { value := v,
                 metadata := { version := r0.metadata.version + 1,
                               created := r0.metadata.created,
                               updated := now,
                               schema := r0.metadata.schema } } := by
      simp [esSet, hk, hv, hns, hr0, updateMetadata]
    rw [this] at hr1
    have : r1.metadata.version = r0.metadata.version + 1 := by
      injection hr1 with h
      rw [← h]
    omega

/-- The empty database. -/
def emptyEStore : EStore := fun _ _ => none

theorem storage_set_metadata_versioning_witness :
    (esSet emptyEStore 7 "user" (.json (.str "Alice")) "settings").error = none
    ∧ (emptyEStore (getTableName "settings") "user" = none →
        (esSet emptyEStore 7 "user" (.json (.str "Alice")) "settings").store
            (getTableName "settings") "user"
          = some { value := .json (.str "Alice"),
                   metadata := { version := 1, created := 7, updated := 7,
                                 schema := "default" } })
    ∧ (∀ r0, emptyEStore (getTableName "settings") "user" = some r0 →
        (esSet emptyEStore 7 "user" (.json (.str "Alice")) "settings").store
            (getTableName "settings") "user"
          = some { value := .json (.str "Alice"),
                   metadata := { version := r0.metadata.version + 1,
                                 created := r0.metadata.created,
                                 updated := 7,
                                 schema := r0.metadata.schema } })
    ∧ (∀ r0 r1, emptyEStore (getTableName "settings") "user" = some r0 →
        (esSet emptyEStore 7 "user" (.json (.str "Alice")) "settings").store
            (getTableName "settings") "user" = some r1 →
        r0.metadata.version < r1.metadata.version) :=
  storage_set_metadata_versioning emptyEStore 7 "user" (.json (.str "Alice")) "settings"
    rfl rfl rfl

/-- C5.  Writing `k` in namespace `ns2` never disturbs `k` in a
different namespace `ns1`: after `set(k, v1, ns1)` then
`set(k, v2, ns2)`, `get(k, ns1)` is `v1` and `get(k, ns2)` is `v2`
(distinct namespaces map to distinct backing tables,
`getTableName` being injective). -/
theorem storage_namespace_isolation (st : EStore) (n1 n2 : Nat) (k : String)
    (v1 v2 : StoreValue) (ns1 ns2 : String)
    (hk : validateKey k = none) (hv1 : validateValue v1 = none)
    (hv2 : validateValue v2 = none) (hns1 : validateNamespace ns1 = none)
    (hns2 : validateNamespace ns2 = none) (hne : ns1 ≠ ns2) :
    esGet (esSet (esSet st n1 k v1 ns1).store n2 k v2 ns2).store k ns1
      = .ok (some v1)
    ∧ esGet (esSet (esSet st n1 k v1 ns1).store n2 k v2 ns2).store k ns2
      = .ok (some v2) := by
  have htbl : getTableName ns1 ≠ getTableName ns2 := getTableName_inj hne
  have hst1 : ∀ t key', t = getTableName ns1 → key' = k →
      (esSet st n1 k v1 ns1).store t key' =
        some { value := v1
               metadata := match st (getTableName ns1) k with
                 | some r => updateMetadata n1 r.metadata none
                 | none => createMetadata n1 "default" } := by
    intro t key' ht hk'
    subst ht hk'
    simp [esSet, hk, hv1, hns1]
  have hst2val : (esSet (esSet st n1 k v1 ns1).store n2 k v2 ns2).store (getTableName ns2) k
      = some { value := v2
               metadata := match (esSet st n1 k v1 ns1).store (getTableName ns2) k with
                 | some r => updateMetadata n2 r.metadata none
                 | none => createMetadata n2 "default" } := by
    simp [esSet, hk, hv2, hns2]
  have hst2frame : (esSet (esSet st n1 k v1 ns1).store n2 k v2 ns2).store (getTableName ns1) k
      = (esSet st n1 k v1 ns1).store (getTableName ns1) k := by
    simp [esSet, hk, hv2, hns2, htbl]
  constructor
  · rw [esGet, hk, hns1]
    rw [hst2frame, hst1 (getTableName ns1) k rfl rfl]
  · rw [esGet, hk, hns2]
    rw [hst2val]

theorem storage_namespace_isolation_witness :
    esGet (esSet (esSet emptyEStore 1 "k" (.json (.str "v1")) "ns1").store
        2 "k" (.json (.str "v2")) "ns2").store "k" "ns1"
      = .ok (some (.json (.str "v1")))
    ∧ esGet (esSet (esSet emptyEStore 1 "k" (.json (.str "v1")) "ns1").store
        2 "k" (.json (.str "v2")) "ns2").store "k" "ns2"
      = .ok (some (.json (.str "v2"))) :=
  storage_namespace_isolation emptyEStore 1 2 "k" (.json (.str "v1")) (.json (.str "v2"))
    "ns1" "ns2" rfl rfl rfl rfl rfl (by decide)

/-- C6.  `set` raises a `ValidationError` — before performing any
backend I/O, leaving the stored state completely unchanged — whenever
the key fails its format rule (`^[a-zA-Z0-9-_]+$`, non-empty, at most
255 characters), the namespace fails its rule (`^[a-z0-9-]+$`,
non-empty, at most 50 characters), or the value is not structurally
serialisable (`undefined`, a function, or a value `JSON.stringify`
throws on, such as a cyclic structure). -/
theorem storage_set_validation_guards (st : EStore) (now : Nat) (k : String)
    (v : StoreValue) (ns : String)
    (h : ¬ (k.length ≠ 0 ∧ k.length ≤ 255 ∧ k.data.all isKeyChar = true)
       ∨ ¬ (ns.length ≠ 0 ∧ ns.length ≤ 50 ∧ ns.data.all isNsChar = true)
       ∨ v = .undef ∨ v = .func ∨ v = .cyclic) :
    (∃ m, (esSet st now k v ns).error = some (.validation m))
    ∧ (esSet st now k v ns).store = st
    ∧ (esSet st now k v ns).ops = [] := by
  have hfail : validateKey k ≠ none ∨ validateValue v ≠ none ∨ validateNamespace ns ≠ none := by
    rcases h with hkey | hns | hv | hv | hv
    · left
      rw [validateKey]
      by_cases h0 : k.length = 0
      · simp [h0]
      · by_cases h255 : 255 < k.length
        · simp [h0, h255]
        · have hchar : ¬ k.data.all isKeyChar = true := by
            push_neg at hkey
            exact hkey h0 (by omega)
          simp [h0, h255, hchar]
    · right; right
      rw [validateNamespace]
      by_cases h0 : ns.length = 0
      · simp [h0]
      · by_cases h50 : 50 < ns.length
        · simp [h0, h50]
        · have hchar : ¬ ns.data.all isNsChar = true := by
            push_neg at hns
            exact hns h0 (by omega)
          simp [h0, h50, hchar]
    · right; left; rw [hv]; simp [validateValue]
    · right; left; rw [hv]; simp [validateValue]
    · right; left; rw [hv]; simp [validateValue]
  rcases hk : validateKey k with _ | mk
  · rcases hv : validateValue v with _ | mv
    · rcases hns : validateNamespace ns with _ | mn
      · exact absurd hfail (by simp [hk, hv, hns])
      · exact ⟨⟨mn, by simp [esSet, hk, hv, hns]⟩, by simp [esSet, hk, hv, hns],
          by simp [esSet, hk, hv, hns]⟩
    · exact ⟨⟨mv, by simp [esSet, hk, hv]⟩, by simp [esSet, hk, hv],
        by simp [esSet, hk, hv]⟩
  · exact ⟨⟨mk, by simp [esSet, hk]⟩, by simp [esSet, hk], by simp [esSet, hk]⟩

theorem storage_set_validation_guards_witness :
    (∃ m, (esSet emptyEStore 3 "bad key!" (.json .null) "default").error
        = some (.validation m))
    ∧ (esSet emptyEStore 3 "bad key!" (.json .null) "default").store = emptyEStore
    ∧ (esSet emptyEStore 3 "bad key!" (.json .null) "default").ops = [] :=
  storage_set_validation_guards emptyEStore 3 "bad key!" (.json .null) "default"
    (Or.inl (by decide))

/-! ### `getStorageInfo` on the two backends -/

/-- Storage usage info `{used, quota, percentage}`. -/
structure StorageInfo where
  used : Nat
  quota : Nat
  percentage : ℚ
deriving DecidableEq, Repr

/-- The result of `navigator.storage.estimate()` (fields may be
absent). -/
structure StorageEstimate where
  usage : Option Nat
  quota : Option Nat

/-- Embedding of `BrowserStorageAdapter.getStorageInfo`: when the Storage API is
available, `navigator.storage.estimate()` is awaited with NO
try/catch, so a rejection propagates to the caller; the zeroed struct
is returned only on the no-Storage-API fallback path.  (The `|| 0`
defaults on `usage`/`quota` are the `getD 0`; the percentage is 0 when
`quota` is absent or zero.) -/
def browserGetStorageInfo (storageApiSupported : Bool)
    (estimate : Except String StorageEstimate) : Except String StorageInfo :=
  if storageApiSupported then
    match estimate with
    | .error e => .error e
    | .ok est =>
      .ok { used := est.usage.getD 0
            quota := est.quota.getD 0
            percentage :=
              match est.quota with
              | none => 0
              | some 0 => 0
              | some q => ((est.usage.getD 0 : ℚ) / (q : ℚ)) * 100 }
  else .ok { used := 0, quota := 0, percentage := 0 }

/-- Constant `Number.MAX_SAFE_INTEGER`. -/
def MAX_SAFE_INTEGER : Nat := 2 ^ 53 - 1

/-- Embedding of `ElectronStorageAdapter.getStorageInfo`: the whole body is wrapped
in try/catch, so any backend failure yields the zeroed struct. -/
def electronGetStorageInfo (dbSize : Except String Nat) : StorageInfo :=
  match dbSize with
  | .ok size => { used := size, quota := MAX_SAFE_INTEGER, percentage := 0 }
  | .error _ => { used := 0, quota := 0, percentage := 0 }

/-- C9 counterexample.  On the browser backend, a failure of
`navigator.storage.estimate()` propagates to the caller instead of
producing the zeroed struct: `getStorageInfo` has no try/catch there,
contradicting the claim that on either backend every backend failure
yields `{used: 0, quota: 0, percentage: 0}` and never raises. -/
theorem browser_getStorageInfo_propagates_counterexample :
    browserGetStorageInfo true (.error "estimate failed") = .error "estimate failed"
    ∧ browserGetStorageInfo true (.error "estimate failed")
        ≠ .ok { used := 0, quota := 0, percentage := 0 } := by
  constructor
  · rfl
  · intro h
    exact Except.noConfusion h

/-- C9 (amended).  The Electron backend never propagates a failure of
the database-size query — any failure yields the zeroed struct — and
the browser backend returns the zeroed struct when the Storage API is
unavailable; but on the browser backend a failure of the `estimate`
call itself propagates to the caller. -/
theorem getStorageInfo_soft_fail_amended :
    (∀ msg, electronGetStorageInfo (.error msg)
        = { used := 0, quota := 0, percentage := 0 })
    ∧ (∀ est, browserGetStorageInfo false est
        = .ok { used := 0, quota := 0, percentage := 0 })
    ∧ (∀ msg, browserGetStorageInfo true (.error msg) = .error msg) :=
  ⟨fun _ => rfl, fun _ => rfl, fun _ => rfl⟩

/-! ## Feed-list reconciliation (`FeedManager.updateFeeds`)

The feed-manager module's `updateFeeds` (the current revision of the
module, the one that also listens for `refreshFeeds`): it maps the old
feeds by URL, migrates the stored items and seen-hash ledger of a feed
whose URL matched but whose id changed (copy under the new id, then
delete the old keys), and finally purges the stored items and ledger of
every old id that is not among the new ids.  The storage keys
`feed_items_<feedId>` and `seen_hashes_<feedId>` are two disjoint key
families, embedded as the two fields of `FMStore` indexed by feed id. -/

/-- One entry of `settings.rssFeeds`. -/
structure FeedCfg where
  id : String
  url : String
  title : String
deriving DecidableEq, Repr

/-- The feed-related storage: `feed_items_<id>` and `seen_hashes_<id>`. -/
structure FMStore where
  items : String → Option (List Item)
  hashes : String → Option (List String)

/-- Point update of a string-indexed table. -/
def fupdate {α : Type} (f : String → Option α) (k : String) (v : Option α) :
    String → Option α :=
  fun x => if x = k then v else f x

/-- Lookup `oldFeedsByUrl.get(url)`: the old feeds map is iterated in order
and `set` by URL, so a lookup returns the LAST old feed with that URL. -/
def lookupByUrlLast (olds : List (String × Feed)) (url : String) : Option (String × Feed) :=
  match olds with
  | [] => none
  | p :: rest =>
    match lookupByUrlLast rest url with
    | some q => some q
    | none => if p.2.url = url then some p else none

/-- The body of the `for (const feed of newFeeds)` loop restricted to
its storage effect: when the URL matched an old feed with a different
id, copy `feed_items`/`seen_hashes` from the old id to the new id
(`storage.get(...) || []`) and delete the old keys. -/
def migrateOne (olds : List (String × Feed)) (st : FMStore) (f : FeedCfg) : FMStore :=
  match lookupByUrlLast olds f.url with
  | some (oldId, _) =>
    if oldId ≠ f.id then
      { items := fupdate (fupdate st.items f.id (some ((st.items oldId).getD []))) oldId none
        hashes := fupdate (fupdate st.hashes f.id (some ((st.hashes oldId).getD []))) oldId none }
    else st
  | none => st

/-- The ids removed from the list: old ids not among the new ids. -/
def removedIds (olds : List (String × Feed)) (newFeeds : List FeedCfg) : List String :=
  (olds.map Prod.fst).filter (fun i => !((newFeeds.map (fun f => f.id)).contains i))

/-- The cleanup loop: delete `feed_items_` and `seen_hashes_` for every
removed feed id. -/
def purgePhase (removed : List String) (st : FMStore) : FMStore :=
  removed.foldl
    (fun s i => { items := fupdate s.items i none, hashes := fupdate s.hashes i none }) st

/-- The storage effect of `FeedManager.updateFeeds`: the migration loop
over the new feeds, then the cleanup loop over the removed ids. -/
def updateFeedsStorage (olds : List (String × Feed)) (newFeeds : List FeedCfg)
    (st : FMStore) : FMStore :=
  purgePhase (removedIds olds newFeeds) (newFeeds.foldl (migrateOne olds) st)

lemma lookupByUrlLast_mem {olds : List (String × Feed)} {url : String} {i : String}
    {g : Feed} (h : lookupByUrlLast olds url = some (i, g)) :
    (i, g) ∈ olds ∧ g.url = url := by
  induction olds with
  | nil => simp [lookupByUrlLast] at h
  | cons p rest ih =>
    rw [lookupByUrlLast] at h
    cases hrest : lookupByUrlLast rest url with
    | some q =>
      rw [hrest] at h
      have : q = (i, g) := by injection h
      subst this
      exact ⟨List.mem_cons_of_mem _ (ih hrest).1, (ih hrest).2⟩
    | none =>
      rw [hrest] at h
      by_cases hurl : p.2.url = url
      · have : p = (i, g) := by
          rw [if_pos hurl] at h
          injection h
        subst this
        exact ⟨List.mem_cons_self _ _, hurl⟩
      · rw [if_neg hurl] at h
        exact absurd h (by simp)

lemma migrateOne_frame {olds : List (String × Feed)} (st : FMStore) {f : FeedCfg}
    {K : String} (h1 : K ≠ f.id)
    (h2 : ∀ i g, lookupByUrlLast olds f.url = some (i, g) → i ≠ K) :
    (migrateOne olds st f).items K = st.items K
    ∧ (migrateOne olds st f).hashes K = st.hashes K := by
  rw [migrateOne]
  cases hlook : lookupByUrlLast olds f.url with
  | none => exact ⟨rfl, rfl⟩
  | some p =>
    obtain ⟨i, g⟩ := p
    dsimp only
    by_cases hne : i ≠ f.id
    · rw [if_pos hne]
      have hKi : K ≠ i := fun hc => (h2 i g hlook) (hc ▸ rfl)
      constructor
      · show fupdate (fupdate st.items f.id _) i none K = st.items K
        rw [fupdate, if_neg hKi, fupdate, if_neg h1]
      · show fupdate (fupdate st.hashes f.id _) i none K = st.hashes K
        rw [fupdate, if_neg hKi, fupdate, if_neg h1]
    · rw [if_neg hne]
      exact ⟨rfl, rfl⟩

lemma foldl_migrateOne_frame {olds : List (String × Feed)} {K : String} :
    ∀ (l : List FeedCfg) (st : FMStore),
    (∀ f ∈ l, K ≠ f.id ∧ ∀ i g, lookupByUrlLast olds f.url = some (i, g) → i ≠ K) →
    (l.foldl (migrateOne olds) st).items K = st.items K
    ∧ (l.foldl (migrateOne olds) st).hashes K = st.hashes K := by
  intro l
  induction l with
  | nil => intro st _; exact ⟨rfl, rfl⟩
  | cons f rest ih =>
    intro st H
    rw [List.foldl_cons]
    obtain ⟨h1, h2⟩ := H f (List.mem_cons_self _ _)
    have hstep := migrateOne_frame st h1 h2
    have hrest := ih (migrateOne olds st f) (fun f' hf' => H f' (List.mem_cons_of_mem _ hf'))
    exact ⟨hrest.1.trans hstep.1, hrest.2.trans hstep.2⟩

lemma purgePhase_preserves {removed : List String} {K : String} :
    ∀ st : FMStore, K ∉ removed →
    (purgePhase removed st).items K = st.items K
    ∧ (purgePhase removed st).hashes K = st.hashes K := by
  induction removed with
  | nil => intro st _; exact ⟨rfl, rfl⟩
  | cons r rest ih =>
    intro st hK
    have hKr : K ≠ r := fun hc => hK (hc ▸ List.mem_cons_self _ _)
    have hKnotrest : K ∉ rest := fun hc => hK (List.mem_cons_of_mem _ hc)
    simp only [purgePhase, List.foldl_cons]
    have hstep := ih ⟨fupdate st.items r none, fupdate st.hashes r none⟩ hKnotrest
    simp only [purgePhase] at hstep
    refine ⟨hstep.1.trans ?_, hstep.2.trans ?_⟩
    · simp [fupdate, hKr]
    · simp [fupdate, hKr]

lemma purgePhase_none_stays (removed : List String) (K : String) :
    ∀ st : FMStore, st.items K = none → st.hashes K = none →
    (purgePhase removed st).items K = none
    ∧ (purgePhase removed st).hashes K = none := by
  induction removed with
  | nil => intro st h1 h2; exact ⟨h1, h2⟩
  | cons r rest ih =>
    intro st h1 h2
    simp only [purgePhase, List.foldl_cons]
    simp only [purgePhase] at ih
    apply ih
    · simp [fupdate, h1]
    · simp [fupdate, h2]

lemma purgePhase_mem {removed : List String} {K : String} :
    ∀ st : FMStore, K ∈ removed →
    (purgePhase removed st).items K = none
    ∧ (purgePhase removed st).hashes K = none := by
  induction removed with
  | nil => intro st h; simp at h
  | cons r rest ih =>
    intro st hK
    simp only [purgePhase, List.foldl_cons]
    by_cases hKrest : K ∈ rest
    · simp only [purgePhase] at ih
      exact ih _ hKrest
    · have hKr : K = r := by
        rcases List.mem_cons.mp hK with h | h
        · exact h
        · exact absurd h hKrest
      subst hKr
      have hstays := purgePhase_none_stays rest K
        ⟨fupdate st.items K none, fupdate st.hashes K none⟩
        (by simp [fupdate]) (by simp [fupdate])
      simp only [purgePhase] at hstays ⊢
      exact hstays

lemma nodup_fst_eq {l : List (String × Feed)} (h : (l.map Prod.fst).Nodup)
    {k : String} {a b : Feed} (ha : (k, a) ∈ l) (hb : (k, b) ∈ l) : a = b := by
  induction l with
  | nil => simp at ha
  | cons p rest ih =>
    have hnodup : (p.1 :: rest.map Prod.fst).Nodup := by
      simpa only [List.map_cons] using h
    have hhead : p.1 ∉ rest.map Prod.fst := (List.nodup_cons.mp hnodup).1
    have htail : (rest.map Prod.fst).Nodup := (List.nodup_cons.mp hnodup).2
    rcases List.mem_cons.mp ha with ha' | ha' <;> rcases List.mem_cons.mp hb with hb' | hb'
    · exact congrArg Prod.snd (ha'.trans hb'.symm)
    · exfalso
      have hk : p.1 = k := by rw [← ha']
      rw [hk] at hhead
      exact hhead (List.mem_map.mpr ⟨(k, b), hb', rfl⟩)
    · exfalso
      have hk : p.1 = k := by rw [← hb']
      rw [hk] at hhead
      exact hhead (List.mem_map.mpr ⟨(k, a), ha', rfl⟩)
    · exact ih htail ha' hb'

lemma nodup_split_ne {α β : Type} {pre post : List α} {f : α} {g : α → β}
    (h : ((pre ++ f :: post).map g).Nodup) :
    (∀ x ∈ pre, g x ≠ g f) ∧ (∀ x ∈ post, g x ≠ g f) := by
  rw [List.map_append, List.map_cons] at h
  rcases List.nodup_append.mp h with ⟨_, h2, hdisj⟩
  constructor
  · intro x hx hc
    exact hdisj (List.mem_map.mpr ⟨x, hx, rfl⟩) (by simp [hc])
  · intro x hx hc
    exact (List.nodup_cons.mp h2).1 (hc ▸ List.mem_map.mpr ⟨x, hx, rfl⟩)

/-- C7.  On a feed-list change (`updateFeeds` reconciliation):
every old feed id absent from the new list has its stored items and
seen-hash ledger purged entirely; and a feed whose URL matched an old
feed but whose derived id changed has its stored items and ledger
migrated from the old key to the new key (copy, then the old key is
deleted), so no history is lost.  The migration conjunct assumes the
hash-derived ids do not collide: new ids and new URLs are pairwise
distinct, old ids are pairwise distinct (they key a `Map`), the new id
is fresh, and the old id is not reused by another new feed. -/
theorem updateFeeds_migrates_and_purges (olds : List (String × Feed))
    (newFeeds : List FeedCfg) (st : FMStore)
    (hOldNodup : (olds.map Prod.fst).Nodup)
    (hNewIds : (newFeeds.map (fun f => f.id)).Nodup)
    (hNewUrls : (newFeeds.map (fun f => f.url)).Nodup) :
    (∀ r, r ∈ olds.map Prod.fst → r ∉ newFeeds.map (fun f => f.id) →
      (updateFeedsStorage olds newFeeds st).items r = none
      ∧ (updateFeedsStorage olds newFeeds st).hashes r = none)
    ∧ (∀ f ∈ newFeeds, ∀ oldId g, lookupByUrlLast olds f.url = some (oldId, g) →
        oldId ≠ f.id → f.id ∉ olds.map Prod.fst →
        oldId ∉ newFeeds.map (fun f' => f'.id) →
        (updateFeedsStorage olds newFeeds st).items f.id
            = some ((st.items oldId).getD [])
        ∧ (updateFeedsStorage olds newFeeds st).hashes f.id
            = some ((st.hashes oldId).getD [])
        ∧ (updateFeedsStorage olds newFeeds st).items oldId = none
        ∧ (updateFeedsStorage olds newFeeds st).hashes oldId = none) := by
  constructor
  · intro r hrold hrnew
    have hrremoved : r ∈ removedIds olds newFeeds := by
      rw [removedIds]
      refine List.mem_filter.mpr ⟨hrold, ?_⟩
      simpa using hrnew
    exact purgePhase_mem _ hrremoved
  · intro f hf oldId g hlook hne hfresh holdnotnew
    obtain ⟨pre, post, rfl⟩ := List.append_of_mem hf
    have hsplitIds := nodup_split_ne hNewIds
    have hsplitUrls := nodup_split_ne hNewUrls
    have holdg : (oldId, g) ∈ olds ∧ g.url = f.url := lookupByUrlLast_mem hlook
    -- frame conditions at the new key `f.id` for any other new feed
    have hcond_fid : ∀ f' ∈ pre ++ post,
        f.id ≠ f'.id ∧ ∀ i g', lookupByUrlLast olds f'.url = some (i, g') → i ≠ f.id := by
      intro f' hf'
      have hne' : f'.id ≠ f.id := by
        rcases List.mem_append.mp hf' with h | h
        · exact hsplitIds.1 f' h
        · exact hsplitIds.2 f' h
      refine ⟨fun hc => hne' hc.symm, ?_⟩
      intro i g' hl hc
      have := (lookupByUrlLast_mem hl).1
      exact hfresh (hc ▸ List.mem_map.mpr ⟨(i, g'), this, rfl⟩)
    -- frame conditions at the old key `oldId` for any other new feed
    have hcond_old : ∀ f' ∈ pre ++ post,
        oldId ≠ f'.id ∧ ∀ i g', lookupByUrlLast olds f'.url = some (i, g') → i ≠ oldId := by
      intro f' hf'
      have hurl' : f'.url ≠ f.url := by
        rcases List.mem_append.mp hf' with h | h
        · exact hsplitUrls.1 f' h
        · exact hsplitUrls.2 f' h
      constructor
      · intro hc
        exact holdnotnew (hc ▸ List.mem_map.mpr ⟨f', List.mem_append.mp hf' |>.elim
            (fun h => List.mem_append.mpr (Or.inl h))
            (fun h => List.mem_append.mpr (Or.inr (List.mem_cons_of_mem _ h))), rfl⟩)
      · intro i g' hl hc
        subst hc
        have hmem' := (lookupByUrlLast_mem hl).1
        have hurl2 := (lookupByUrlLast_mem hl).2
        have : g' = g := nodup_fst_eq hOldNodup hmem' holdg.1
        subst this
        exact hurl' (hurl2 ▸ holdg.2 ▸ rfl)
    have hcond_fid_pre : ∀ f' ∈ pre,
        f.id ≠ f'.id ∧ ∀ i g', lookupByUrlLast olds f'.url = some (i, g') → i ≠ f.id :=
      fun f' h => hcond_fid f' (List.mem_append.mpr (Or.inl h))
    have hcond_fid_post : ∀ f' ∈ post,
        f.id ≠ f'.id ∧ ∀ i g', lookupByUrlLast olds f'.url = some (i, g') → i ≠ f.id :=
      fun f' h => hcond_fid f' (List.mem_append.mpr (Or.inr h))
    have hcond_old_pre : ∀ f' ∈ pre,
        oldId ≠ f'.id ∧ ∀ i g', lookupByUrlLast olds f'.url = some (i, g') → i ≠ oldId :=
      fun f' h => hcond_old f' (List.mem_append.mpr (Or.inl h))
    have hcond_old_post : ∀ f' ∈ post,
        oldId ≠ f'.id ∧ ∀ i g', lookupByUrlLast olds f'.url = some (i, g') → i ≠ oldId :=
      fun f' h => hcond_old f' (List.mem_append.mpr (Or.inr h))
    -- the migration fold, split at `f`
    have hfold : (pre ++ f :: post).foldl (migrateOne olds) st
        = post.foldl (migrateOne olds) (migrateOne olds (pre.foldl (migrateOne olds) st) f) := by
      rw [List.foldl_append, List.foldl_cons]
    have hpre_old := foldl_migrateOne_frame pre st hcond_old_pre
    have hfid_ne_old : f.id ≠ oldId := fun hc => hne hc.symm
    -- the step at `f` copies old → new and deletes the old keys
    have hstep_items_fid : (migrateOne olds (pre.foldl (migrateOne olds) st) f).items f.id
        = some ((st.items oldId).getD []) := by
      rw [migrateOne, hlook]
      dsimp only
      rw [if_pos hne]
      show fupdate (fupdate (pre.foldl (migrateOne olds) st).items f.id
          (some (((pre.foldl (migrateOne olds) st).items oldId).getD []))) oldId none f.id
        = some ((st.items oldId).getD [])
      rw [fupdate, if_neg hfid_ne_old, fupdate, if_pos rfl, hpre_old.1]
    have hstep_hashes_fid : (migrateOne olds (pre.foldl (migrateOne olds) st) f).hashes f.id
        = some ((st.hashes oldId).getD []) := by
      rw [migrateOne, hlook]
      dsimp only
      rw [if_pos hne]
      show fupdate (fupdate (pre.foldl (migrateOne olds) st).hashes f.id
          (some (((pre.foldl (migrateOne olds) st).hashes oldId).getD []))) oldId none f.id
        = some ((st.hashes oldId).getD [])
      rw [fupdate, if_neg hfid_ne_old, fupdate, if_pos rfl, hpre_old.2]
    have hstep_items_old : (migrateOne olds (pre.foldl (migrateOne olds) st) f).items oldId
        = none := by
      rw [migrateOne, hlook]
      dsimp only
      rw [if_pos hne]
      show fupdate (fupdate (pre.foldl (migrateOne olds) st).items f.id
          (some (((pre.foldl (migrateOne olds) st).items oldId).getD []))) oldId none oldId
        = none
      rw [fupdate, if_pos rfl]
    have hstep_hashes_old : (migrateOne olds (pre.foldl (migrateOne olds) st) f).hashes oldId
        = none := by
      rw [migrateOne, hlook]
      dsimp only
      rw [if_pos hne]
      show fupdate (fupdate (pre.foldl (migrateOne olds) st).hashes f.id
          (some (((pre.foldl (migrateOne olds) st).hashes oldId).getD []))) oldId none oldId
        = none
      rw [fupdate, if_pos rfl]
    have hpost_fid := foldl_migrateOne_frame post
      (migrateOne olds (pre.foldl (migrateOne olds) st) f) hcond_fid_post
    have hpost_old := foldl_migrateOne_frame post
      (migrateOne olds (pre.foldl (migrateOne olds) st) f) hcond_old_post
    have hfid_not_removed : f.id ∉ removedIds olds (pre ++ f :: post) := by
      intro hc
      exact hfresh (List.mem_filter.mp hc).1
    have hold_items_none : (post.foldl (migrateOne olds)
        (migrateOne olds (pre.foldl (migrateOne olds) st) f)).items oldId = none := by
      rw [hpost_old.1, hstep_items_old]
    have hold_hashes_none : (post.foldl (migrateOne olds)
        (migrateOne olds (pre.foldl (migrateOne olds) st) f)).hashes oldId = none := by
      rw [hpost_old.2, hstep_hashes_old]
    have hold_final := purgePhase_none_stays (removedIds olds (pre ++ f :: post)) oldId
      (post.foldl (migrateOne olds) (migrateOne olds (pre.foldl (migrateOne olds) st) f))
      hold_items_none hold_hashes_none
    refine ⟨?_, ?_, ?_, ?_⟩
    · simp only [updateFeedsStorage]
      rw [hfold, (purgePhase_preserves _ hfid_not_removed).1, hpost_fid.1, hstep_items_fid]
    · simp only [updateFeedsStorage]
      rw [hfold, (purgePhase_preserves _ hfid_not_removed).2, hpost_fid.2, hstep_hashes_fid]
    · simp only [updateFeedsStorage]
      rw [hfold]
      exact hold_final.1
    · simp only [updateFeedsStorage]
      rw [hfold]
      exact hold_final.2

/-- Concrete reconciliation scenario: one old feed whose URL is kept
but whose derived id changes from `oldA` to `newA`. -/
def feedAOld : Feed :=
  { id := "oldA", url := "https://a.test/feed", title := "A", lastFetchTime := 0,
    errorCount := 0, retryCount := 0, status := .active, lastError := none }

def oldsW : List (String × Feed) := [("oldA", feedAOld)]

def newCfgA : FeedCfg := { id := "newA", url := "https://a.test/feed", title := "A" }

def newW : List FeedCfg := [newCfgA]

def stW : FMStore :=
  { items := fun i => if i = "oldA" then some [testItem "h1" 5] else none
    hashes := fun i => if i = "oldA" then some ["h1"] else none }

theorem updateFeeds_migrates_and_purges_witness :
    (updateFeedsStorage oldsW newW stW).items newCfgA.id
        = some ((stW.items "oldA").getD [])
    ∧ (updateFeedsStorage oldsW newW stW).hashes newCfgA.id
        = some ((stW.hashes "oldA").getD [])
    ∧ (updateFeedsStorage oldsW newW stW).items "oldA" = none
    ∧ (updateFeedsStorage oldsW newW stW).hashes "oldA" = none :=
  (updateFeeds_migrates_and_purges oldsW newW stW (by decide) (by decide) (by decide)).2
    newCfgA (by decide) "oldA" feedAOld (by decide) (by decide) (by decide) (by decide)

end Kupukupu
